import Mathlib

/-!
Shallow embedding of the `loadbalancer` repository (Go) in Lean 4.

The registry (`ServerPool`, `src/lb/serverpool.go`) is a Go map from address
to backend.  Go leaves map iteration order unspecified (and the runtime
randomizes it), so the map is modelled as a `List Backend`: the list order
models one possible iteration order of the map, and facts that should hold
for the real program regardless of iteration order are stated for every
list, while facts that the unspecified order can break are refuted by
exhibiting a particular order.

Machine integers: the selection counters (`uint64`) are modelled as `Nat`
and the per-backend active counter (`int64`) as `Int`; both are only ever
moved by single increments or decrements around real requests, so the
2^63/2^64 wrap of the Go types is not modelled.
-/

/-- One backend server and its runtime metrics (`Backend` in
`src/lb/serverpool.go`). -/
structure Backend where
  addr : String
  weight : Int
  active : Int
  healthy : Bool
deriving Repr, DecidableEq

/-- `(*Backend).incActive` in `src/lb/serverpool.go`: atomic add of 1. -/
def incActive (b : Backend) : Backend :=
  { b with active := b.active + 1 }

/-- `(*Backend).decActive` in `src/lb/serverpool.go`: atomic add of -1,
then reset to 0 if the result went negative. -/
def decActive (b : Backend) : Backend :=
  let n := b.active - 1
  if n < 0 then { b with active := 0 } else { b with active := n }

/-- The backend registry (`ServerPool` in `src/lb/serverpool.go`).
`backends` models the Go map `map[string]*Backend` (list order = map
iteration order); `weightCounter` is the atomic `uint64` counter used by
weighted selection. -/
structure ServerPool where
  backends : List Backend
  weightCounter : Nat
deriving Repr, DecidableEq

/-- Go map lookup `sp.backends[addr]`. -/
def lookupBackend (sp : ServerPool) (addr : String) : Option Backend :=
  sp.backends.find? (fun b => b.addr == addr)

/-- Go map assignment `sp.backends[b.Addr] = b`: replaces the entry when the
key is present, otherwise inserts it. -/
def setBackend (l : List Backend) (b : Backend) : List Backend :=
  if l.any (fun x => x.addr == b.addr) then
    l.map (fun x => if x.addr == b.addr then b else x)
  else
    l ++ [b]

/-- `(*ServerPool).AddServerWithWeight` in `src/lb/serverpool.go`:
normalizes a non-positive weight to 1 and stores a fresh backend record
(healthy, zero active count) under the address. -/
def AddServerWithWeight (sp : ServerPool) (addr : String) (weight : Int) :
    ServerPool :=
  let w := if weight ≤ 0 then 1 else weight
  { sp with
      backends := setBackend sp.backends
        { addr := addr, weight := w, active := 0, healthy := true } }

/-- `(*ServerPool).RemoveServer` in `src/lb/serverpool.go`: `delete` from
the map. -/
def RemoveServer (sp : ServerPool) (addr : String) : ServerPool :=
  { sp with backends := sp.backends.filter (fun b => !(b.addr == addr)) }

/-- The Go pattern `if b, ok := sp.backends[addr]; ok { mutate b }`:
updates the entry under `addr` in place, leaves the pool unchanged when the
address is absent. -/
def updateBackend (l : List Backend) (addr : String) (f : Backend → Backend) :
    List Backend :=
  l.map (fun b => if b.addr == addr then f b else b)

/-- `(*ServerPool).MarkHealth` in `src/lb/serverpool.go`: sets the health
flag if the address is registered, otherwise does nothing. -/
def MarkHealth (sp : ServerPool) (addr : String) (healthy : Bool) :
    ServerPool :=
  { sp with
      backends := updateBackend sp.backends addr
        (fun b => { b with healthy := healthy }) }

/-- `(*ServerPool).IncActive` in `src/lb/serverpool.go`: increments the
active counter of the backend under `addr`; when the address is unknown the
Go code only prints a log line and mutates nothing. -/
def IncActive (sp : ServerPool) (addr : String) : ServerPool :=
  { sp with backends := updateBackend sp.backends addr incActive }

/-- `(*ServerPool).DecActive` in `src/lb/serverpool.go`: decrements the
active counter of the backend under `addr`; when the address is unknown the
Go code only prints a log line and mutates nothing. -/
def DecActive (sp : ServerPool) (addr : String) : ServerPool :=
  { sp with backends := updateBackend sp.backends addr decActive }

/-- `(*ServerPool).GetServers` in `src/lb/serverpool.go`: copy of the map
as address/health pairs. -/
def GetServers (sp : ServerPool) : List (String × Bool) :=
  sp.backends.map (fun b => (b.addr, b.healthy))

/-- `(*ServerPool).HealthyBackends` in `src/lb/serverpool.go`: the
addresses of the currently healthy backends, in map iteration order (the Go
loop appends as it ranges over the map; it does not sort). -/
def HealthyBackends (sp : ServerPool) : List String :=
  (sp.backends.filter (fun b => b.healthy)).map (fun b => b.addr)

/-- The scan loop of `(*ServerPool).GetLeastConnBackend`: skip unhealthy
entries, adopt the first healthy one, then replace the candidate whenever a
strictly smaller active count is seen. -/
def leastScan : Option Backend → List Backend → Option Backend
  | chosen, [] => chosen
  | chosen, b :: rest =>
    if b.healthy then
      match chosen with
      | none => leastScan (some b) rest
      | some c =>
        if b.active < c.active then leastScan (some b) rest
        else leastScan (some c) rest
    else
      leastScan chosen rest

/-- `(*ServerPool).GetLeastConnBackend` in `src/lb/serverpool.go`. -/
def GetLeastConnBackend (sp : ServerPool) : String × Bool :=
  match leastScan none sp.backends with
  | none => ("", false)
  | some c => (c.addr, true)

/-- Modelled from the spec: `GetWeightedBackend` calls `sp.totalWeight()`
but no definition of that method appears in the sources; the spec (§4.1)
defines `TotalWeight()` as the sum of weights over the currently healthy
backends only, which is what is modelled here. -/
def totalWeight (sp : ServerPool) : Int :=
  ((sp.backends.filter (fun b => b.healthy)).map (fun b => b.weight)).sum

/-- The bucket-scan loop of `(*ServerPool).GetWeightedBackend`: walk the
healthy entries in map iteration order accumulating weights, and return the
first backend whose cumulative interval contains `m`. -/
def weightedScan (m : Int) : Int → List Backend → Option String
  | _, [] => none
  | cum, b :: rest =>
    if b.healthy then
      if m < cum + b.weight then some b.addr
      else weightedScan m (cum + b.weight) rest
    else
      weightedScan m cum rest

/-- `(*ServerPool).GetWeightedBackend` in `src/lb/serverpool.go`: if the
total (healthy) weight is zero return not-found without touching the
counter; otherwise increment the counter, reduce it modulo the total weight
and scan the weight buckets.  The returned pool carries the new counter. -/
def GetWeightedBackend (sp : ServerPool) : (String × Bool) × ServerPool :=
  let total := totalWeight sp
  if total = 0 then (("", false), sp)
  else
    let idx := sp.weightCounter + 1
    let m : Int := ((idx - 1) % total.toNat : Nat)
    let sp2 := { sp with weightCounter := idx }
    match weightedScan m 0 sp.backends with
    | some a => ((a, true), sp2)
    | none => (("", false), sp2)

/-- Runs `GetWeightedBackend` `n` times in sequence, threading the counter,
and collects the `(address, found)` results in order. -/
def runWeighted : ServerPool → Nat → List (String × Bool)
  | _, 0 => []
  | sp, n + 1 =>
    let r := GetWeightedBackend sp
    r.1 :: runWeighted r.2 n

/-- The pool-backed round-robin strategy (`RoundRobin` in
`src/lb/roundrobin.go`): an atomic selection counter. -/
structure RoundRobin where
  counter : Nat
deriving Repr, DecidableEq

/-- `(*RoundRobin).NextBackend` in `src/lb/roundrobin.go`: take the healthy
snapshot; if it is empty report not-found, otherwise increment the counter
and index the snapshot at `(counter - 1) mod length`. -/
def NextBackend (rr : RoundRobin) (sp : ServerPool) :
    (String × Bool) × RoundRobin :=
  let backends := HealthyBackends sp
  if backends.isEmpty then (("", false), rr)
  else
    let idx := rr.counter + 1
    ((backends.getD ((idx - 1) % backends.length) "", true),
      { counter := idx })

/-- Server-side sticky store (`StickyMap` in the sources): a map from
clientID to backend address plus a TTL.  The Go code stores the TTL but
never reads it ("TTL eviction omitted for brevity"), and entries carry no
timestamp. -/
structure StickyMap where
  store : List (String × String)
  ttl : Int
deriving Repr, DecidableEq

/-- `NewStickyMap(ttl)`: empty store. -/
def NewStickyMap (ttl : Int) : StickyMap :=
  { store := [], ttl := ttl }

/-- `(*StickyMap).Get`: plain map lookup; no expiry check of any kind. -/
def StickyMap.Get (s : StickyMap) (clientID : String) : Option String :=
  (s.store.find? (fun p => p.1 == clientID)).map (fun p => p.2)

/-- `(*StickyMap).Set`: map assignment (replace or insert). -/
def StickyMap.Set (s : StickyMap) (clientID backend : String) : StickyMap :=
  { s with
      store :=
        if s.store.any (fun p => p.1 == clientID) then
          s.store.map
            (fun p => if p.1 == clientID then (clientID, backend) else p)
        else
          s.store ++ [(clientID, backend)] }

/-- Outcome of the cookie-affinity branch of the request handler in
`src/cmd/lb/main.go`: either forward directly to a remembered backend, or
fall through to the active selection strategy. -/
inductive RouteDecision where
  | direct (addr : String)
  | fallthru
deriving Repr, DecidableEq

/-- The cookie sticky branch of the request handler in `src/cmd/lb/main.go`
(lines 109-128): if the request carries a non-empty `LB-STICKY` cookie
value with a mapping in the sticky map, and the mapped backend exists in
the pool and is healthy, route directly to it; in every other case fall
through to the strategy.  Note that the decision consults only the sticky
store and the health map: no time is read, so no notion of expiry enters
the decision. -/
def cookieRoute (cookie : Option String) (sm : StickyMap) (sp : ServerPool) :
    RouteDecision :=
  match cookie with
  | none => RouteDecision.fallthru
  | some v =>
    if v == "" then RouteDecision.fallthru
    else
      match sm.Get v with
      | none => RouteDecision.fallthru
      | some b =>
        match (GetServers sp).lookup b with
        | some true => RouteDecision.direct b
        | _ => RouteDecision.fallthru

/-- Result of Go's `net.ParseIP` followed by `To4()`, as used by
`ipToIndex`: parse failure, a four-octet IPv4 (each octet < 256), or an
IPv6 address together with its normalized `ip.String()` form.  The parser
itself is Go standard library, kept abstract here. -/
inductive GoIP where
  | invalid
  | v4 (a b c d : Nat)
  | v6 (norm : String)
deriving Repr, DecidableEq

/-- `ipToIndex` in the sources: -1 when `n <= 0`; otherwise, when the
client address fails to parse, the first byte of `sha1(clientIP)` modulo
`n`; when it parses as IPv4, the sum of the four octets modulo `n`; when
it parses as IPv6, the first byte of `sha1(ip.String())` modulo `n`.
`goParseIP` abstracts `net.ParseIP`/`To4` and `sha1b0` abstracts the first
byte of `crypto/sha1`'s digest (a value below 256). -/
def ipToIndex (goParseIP : String → GoIP) (sha1b0 : String → Nat)
    (clientIP : String) (n : Int) : Int :=
  if n ≤ 0 then -1
  else
    match goParseIP clientIP with
    | GoIP.invalid => (sha1b0 clientIP : Int) % n
    | GoIP.v4 a b c d => ((a + b + c + d : Nat) : Int) % n
    | GoIP.v6 norm => (sha1b0 norm : Int) % n

/-- UTF-8 encoding of a single code point, byte values as `Nat`; models
Go's `[]byte` view of a string character. -/
def utf8Bytes (c : Nat) : List Nat :=
  if c < 0x80 then [c]
  else if c < 0x800 then [0xC0 + c / 64, 0x80 + c % 64]
  else if c < 0x10000 then
    [0xE0 + c / 4096, 0x80 + (c / 64) % 64, 0x80 + c % 64]
  else
    [0xF0 + c / 262144, 0x80 + (c / 4096) % 64, 0x80 + (c / 64) % 64,
      0x80 + c % 64]

/-- Go's `[]byte(s)`: the UTF-8 bytes of the string. -/
def stringBytes (s : String) : List Nat :=
  s.data.foldr (fun c acc => utf8Bytes c.toNat ++ acc) []

/-- Lower-case hex digit. -/
def hexDigit (n : Nat) : Char :=
  if n < 10 then Char.ofNat (48 + n) else Char.ofNat (87 + n)

/-- `%x` formatting of a byte slice, as `fmt.Sprintf` renders it. -/
def bytesHex (l : List Nat) : String :=
  String.mk (l.foldr (fun b acc => hexDigit (b / 16 % 16) :: hexDigit (b % 16) :: acc) [])

/-- `generateClientID` in `src/cmd/lb/main.go`:
`fmt.Sprintf("%d-%s-%x", time.Now().UnixNano(), getClientIP(r),
[]byte(r.UserAgent())[:6])`.  The slice expression `[:6]` requires the
User-Agent byte string to have length at least 6; on a shorter slice Go
panics with a slice-bounds-out-of-range runtime error, which is modelled
as `none`. -/
def generateClientID (nowUnixNano : Int) (clientIP ua : String) :
    Option String :=
  let uaBytes := stringBytes ua
  if uaBytes.length < 6 then none
  else
    some (toString nowUnixNano ++ "-" ++ clientIP ++ "-" ++
      bytesHex (uaBytes.take 6))

/-! ### Helper lemmas -/

theorem updateBackend_eq_of_absent (l : List Backend) (a : String)
    (f : Backend → Backend) (h : ∀ b ∈ l, ¬ b.addr = a) :
    updateBackend l a f = l := by
  induction l with
  | nil => rfl
  | cons x xs ih =>
    have hx : ¬ x.addr = a := h x (by simp)
    simp only [updateBackend, List.map_cons] at ih ⊢
    rw [if_neg (by simpa using hx), ih (fun b hb => h b (by simp [hb]))]

/-- An operation on a single backend's active counter, as performed by the
Dispatcher around a forwarding call. -/
inductive ActiveOp where
  | inc
  | dec
deriving Repr, DecidableEq

/-- Applies one counter adjustment (`incActive` / `decActive`). -/
def applyActiveOp (b : Backend) : ActiveOp → Backend
  | ActiveOp.inc => incActive b
  | ActiveOp.dec => decActive b

/-- Applies a sequence of counter adjustments in order. -/
def applyActiveOps (b : Backend) (ops : List ActiveOp) : Backend :=
  ops.foldl applyActiveOp b

theorem applyActiveOp_nonneg (b : Backend) (op : ActiveOp)
    (h : 0 ≤ b.active) : 0 ≤ (applyActiveOp b op).active := by
  cases op with
  | inc => simp only [applyActiveOp, incActive]; omega
  | dec =>
    simp only [applyActiveOp, decActive]
    split
    · simp
    · simp only []
      omega

/-! ### Claims -/

/-- C5: for every backend with a non-negative active counter and every
sequence of increment/decrement operations, the counter stays
non-negative; in particular a decrement applied at counter 0 leaves the
counter at 0 (the `decActive` underflow floor in `src/lb/serverpool.go`). -/
theorem active_count_never_negative (b : Backend) (ops : List ActiveOp)
    (h : 0 ≤ b.active) :
    0 ≤ (applyActiveOps b ops).active ∧
    (decActive { b with active := 0 }).active = 0 := by
  constructor
  · induction ops generalizing b with
    | nil => exact h
    | cons op rest ih =>
      exact ih (applyActiveOp b op) (applyActiveOp_nonneg b op h)
  · simp [decActive]

/-- Witness for C5 at a concrete backend and operation sequence. -/
theorem active_count_never_negative_witness :
    (0 : Int) ≤ 0 ∧
    (0 ≤ (applyActiveOps ⟨"http://localhost:8081", 1, 0, true⟩
        [ActiveOp.dec, ActiveOp.dec, ActiveOp.inc]).active ∧
      (decActive ⟨"http://localhost:8081", 1, 0, true⟩).active = 0) :=
  ⟨by decide,
    active_count_never_negative ⟨"http://localhost:8081", 1, 0, true⟩
      [ActiveOp.dec, ActiveOp.dec, ActiveOp.inc] (by decide)⟩

/-- C6: incrementing, decrementing or health-setting an address that is not
registered leaves the whole pool (membership, weights, health flags and
every backend's active counter) unchanged: the Go code only logs and
mutates nothing. -/
theorem unknown_address_ops_are_noops (sp : ServerPool) (a : String)
    (hl : Bool) (h : lookupBackend sp a = none) :
    IncActive sp a = sp ∧ DecActive sp a = sp ∧ MarkHealth sp a hl = sp := by
  have habs : ∀ b ∈ sp.backends, ¬ b.addr = a := by
    intro b hb
    have := List.find?_eq_none.mp h b hb
    simpa using this
  refine ⟨?_, ?_, ?_⟩ <;>
    simp only [IncActive, DecActive, MarkHealth,
      updateBackend_eq_of_absent _ _ _ habs]

/-- Witness for C6: the three operations against a deregistered address on
a concrete one-backend pool. -/
theorem unknown_address_ops_are_noops_witness :
    lookupBackend ⟨[⟨"http://localhost:8081", 1, 0, true⟩], 0⟩
        "http://localhost:9999" = none ∧
    (IncActive ⟨[⟨"http://localhost:8081", 1, 0, true⟩], 0⟩
          "http://localhost:9999" =
        ⟨[⟨"http://localhost:8081", 1, 0, true⟩], 0⟩ ∧
      DecActive ⟨[⟨"http://localhost:8081", 1, 0, true⟩], 0⟩
          "http://localhost:9999" =
        ⟨[⟨"http://localhost:8081", 1, 0, true⟩], 0⟩ ∧
      MarkHealth ⟨[⟨"http://localhost:8081", 1, 0, true⟩], 0⟩
          "http://localhost:9999" false =
        ⟨[⟨"http://localhost:8081", 1, 0, true⟩], 0⟩) :=
  ⟨by decide,
    unknown_address_ops_are_noops
      ⟨[⟨"http://localhost:8081", 1, 0, true⟩], 0⟩
      "http://localhost:9999" false (by decide)⟩

/-- C3 (amended): the healthy snapshot contains exactly the addresses of
the currently healthy backends — its contents are determined by membership
and health flags — but it is produced in map iteration order, which the
code does not sort. -/
theorem healthy_snapshot_membership (sp : ServerPool) (a : String) :
    a ∈ HealthyBackends sp ↔
      ∃ b ∈ sp.backends, b.healthy = true ∧ b.addr = a := by
  simp only [HealthyBackends, List.mem_map, List.mem_filter]
  constructor
  · rintro ⟨b, ⟨hb, hh⟩, rfl⟩
    exact ⟨b, hb, hh, rfl⟩
  · rintro ⟨b, hb, hh, rfl⟩
    exact ⟨b, ⟨hb, hh⟩, rfl⟩

/-- C3 (counterexample): a registry whose map iteration happens to present
address "b" before address "a" (both healthy) yields the snapshot
`["b", "a"]`, which is not address-sorted; so the claim that the snapshot
is returned in deterministic address-sorted order fails on the code. -/
theorem healthy_snapshot_not_address_sorted :
    HealthyBackends ⟨[⟨"b", 1, 0, true⟩, ⟨"a", 1, 0, true⟩], 0⟩ =
      ["b", "a"] ∧
    ¬ List.Pairwise (fun x y => x ≤ y)
        (HealthyBackends ⟨[⟨"b", 1, 0, true⟩, ⟨"a", 1, 0, true⟩], 0⟩) := by
  refine ⟨by decide, ?_⟩
  intro h
  have hba : ("b" : String) ≤ "a" := by
    have he :
        HealthyBackends ⟨[⟨"b", 1, 0, true⟩, ⟨"a", 1, 0, true⟩], 0⟩ =
          ["b", "a"] := by decide
    rw [he] at h
    exact (List.pairwise_cons.mp h).1 "a" (by simp)
  rw [String.le_iff_toList_le] at hba
  exact absurd hba (by decide)

/-- C2 (counterexample): a registry holding exactly the backends A (weight
1) and B (weight 3), both healthy, whose map iteration presents B first,
makes the first four weighted selections return B, B, B, A — not the
claimed A, B, B, B.  Go map iteration order is unspecified, so this order
is a legitimate state of the program. -/
theorem weighted_first_selections_depend_on_map_order :
    (runWeighted ⟨[⟨"B", 3, 0, true⟩, ⟨"A", 1, 0, true⟩], 0⟩ 4).map
        Prod.fst = ["B", "B", "B", "A"] ∧
    (runWeighted ⟨[⟨"B", 3, 0, true⟩, ⟨"A", 1, 0, true⟩], 0⟩ 4).map
        Prod.fst ≠ ["A", "B", "B", "B"] := by
  decide

/-- C2 (amended): with the same two backends but map iteration presenting
A (weight 1) before B (weight 3) — e.g. the address-sorted order the spec
assumes — the first four weighted selections (counter values 1..4, slots
0..3 modulo 4) return A, B, B, B, each with found = true. -/
theorem weighted_sequence_in_sorted_order :
    runWeighted ⟨[⟨"A", 1, 0, true⟩, ⟨"B", 3, 0, true⟩], 0⟩ 4 =
      [("A", true), ("B", true), ("B", true), ("B", true)] := by
  decide

/-- C10: sticky-cookie client-ID generation is NOT total: for a request
whose User-Agent is shorter than 6 bytes (here "abc", and the absent /
empty User-Agent), `generateClientID` evaluates
`[]byte(r.UserAgent())[:6]`, which panics in Go with a slice-bounds error,
modelled as `none`. -/
theorem generateClientID_short_user_agent :
    generateClientID 0 "1.2.3.4" "abc" = none ∧
    generateClientID 0 "1.2.3.4" "" = none ∧
    generateClientID 1700000000 "1.2.3.4" "Mozilla/5.0" =
      some "1700000000-1.2.3.4-4d6f7a696c6c" := by
  decide

/-- C7 (counterexample): the sticky map built by `NewStickyMap` with TTL 0
— under which every recorded mapping's TTL has elapsed by the time of any
later request — still routes a request bearing the sticky token directly
to the mapped healthy backend: `StickyMap.Get` keeps no timestamps and the
handler never consults the TTL, so an expired mapping does not fall
through to the strategy. -/
theorem cookie_route_reuses_expired_mapping :
    (⟨[("c1", "B")], 0⟩ : StickyMap).ttl = 0 ∧
    cookieRoute (some "c1") ⟨[("c1", "B")], 0⟩ ⟨[⟨"B", 1, 0, true⟩], 0⟩ =
      RouteDecision.direct "B" := by
  decide

/-- C7 (amended): with cookie affinity enabled a request is routed
directly to backend `b` exactly when it bears a non-empty sticky token
that the sticky map sends to `b` and `b` is a registered, currently
healthy backend; the age of the mapping is never consulted (the stored TTL
is unused), so stale mappings are reused until overwritten. -/
theorem cookie_route_direct_characterization (cookie : Option String)
    (sm : StickyMap) (sp : ServerPool) (b : String) :
    cookieRoute cookie sm sp = RouteDecision.direct b ↔
      ∃ v, cookie = some v ∧ ¬ v = "" ∧ sm.Get v = some b ∧
        (GetServers sp).lookup b = some true := by
  cases cookie with
  | none => simp [cookieRoute]
  | some v =>
    by_cases hv : v = ""
    · subst hv
      simp [cookieRoute]
    · cases hg : sm.Get v with
      | none => simp [cookieRoute, hg, hv]
      | some b' =>
        cases hl : (GetServers sp).lookup b' with
        | none =>
          simp only [cookieRoute, hg, hl, beq_iff_eq, if_neg hv]
          constructor
          · intro h
            exact absurd h (by simp)
          · rintro ⟨v', hv', -, hgb, hlb⟩
            cases hv'
            rw [hg] at hgb
            cases hgb
            rw [hl] at hlb
            cases hlb
        | some hb =>
          cases hb with
          | true =>
            simp only [cookieRoute, hg, hl, beq_iff_eq, if_neg hv]
            constructor
            · intro h
              cases h
              exact ⟨v, rfl, hv, hg, hl⟩
            · rintro ⟨v', hv', -, hgb, hlb⟩
              cases hv'
              rw [hg] at hgb
              cases hgb
              rfl
          | false =>
            simp only [cookieRoute, hg, hl, beq_iff_eq, if_neg hv]
            constructor
            · intro h
              exact absurd h (by simp)
            · rintro ⟨v', hv', -, hgb, hlb⟩
              cases hv'
              rw [hg] at hgb
              cases hgb
              rw [hl] at hlb
              cases hlb

/-- C8: for every parse and hash oracle, every client address string and
every snapshot size n ≥ 1, `ipToIndex` lands in [0, n): for an address Go
parses as IPv4 it is the octet sum modulo n, for IPv6 the first SHA-1 byte
of the normalized string representation modulo n, and for unparsable input
the first SHA-1 byte of the raw string modulo n. -/
theorem ipToIndex_in_range_and_formula (goParseIP : String → GoIP)
    (sha1b0 : String → Nat) (clientIP : String) (n : Int) (hn : 1 ≤ n) :
    (0 ≤ ipToIndex goParseIP sha1b0 clientIP n ∧
      ipToIndex goParseIP sha1b0 clientIP n < n) ∧
    (∀ a b c d, goParseIP clientIP = GoIP.v4 a b c d →
      ipToIndex goParseIP sha1b0 clientIP n =
        ((a + b + c + d : Nat) : Int) % n) ∧
    (∀ s, goParseIP clientIP = GoIP.v6 s →
      ipToIndex goParseIP sha1b0 clientIP n = (sha1b0 s : Int) % n) ∧
    (goParseIP clientIP = GoIP.invalid →
      ipToIndex goParseIP sha1b0 clientIP n = (sha1b0 clientIP : Int) % n) := by
  have hn0 : ¬ n ≤ 0 := by omega
  refine ⟨?_, ?_, ?_, ?_⟩
  · unfold ipToIndex
    rw [if_neg hn0]
    cases hp : goParseIP clientIP <;>
      exact ⟨Int.emod_nonneg _ (by omega), Int.emod_lt_of_pos _ (by omega)⟩
  · intro a b c d hp
    unfold ipToIndex
    rw [if_neg hn0, hp]
  · intro s hp
    unfold ipToIndex
    rw [if_neg hn0, hp]
  · intro hp
    unfold ipToIndex
    rw [if_neg hn0, hp]

/-- Witness for C8 at a concrete parse oracle, hash oracle, address and
snapshot size. -/
theorem ipToIndex_in_range_and_formula_witness :
    (1 : Int) ≤ 3 ∧
    ((0 ≤ ipToIndex (fun _ => GoIP.v4 10 0 0 7) (fun _ => 200) "10.0.0.7" 3 ∧
        ipToIndex (fun _ => GoIP.v4 10 0 0 7) (fun _ => 200) "10.0.0.7" 3 < 3) ∧
      (∀ a b c d,
        (fun (_ : String) => GoIP.v4 10 0 0 7) "10.0.0.7" = GoIP.v4 a b c d →
        ipToIndex (fun _ => GoIP.v4 10 0 0 7) (fun _ => 200) "10.0.0.7" 3 =
          ((a + b + c + d : Nat) : Int) % 3) ∧
      (∀ s, (fun (_ : String) => GoIP.v4 10 0 0 7) "10.0.0.7" = GoIP.v6 s →
        ipToIndex (fun _ => GoIP.v4 10 0 0 7) (fun _ => 200) "10.0.0.7" 3 =
          ((fun (_ : String) => 200) s : Int) % 3) ∧
      ((fun (_ : String) => GoIP.v4 10 0 0 7) "10.0.0.7" = GoIP.invalid →
        ipToIndex (fun _ => GoIP.v4 10 0 0 7) (fun _ => 200) "10.0.0.7" 3 =
          ((fun (_ : String) => 200) "10.0.0.7" : Int) % 3)) :=
  ⟨by decide,
    ipToIndex_in_range_and_formula (fun _ => GoIP.v4 10 0 0 7)
      (fun _ => 200) "10.0.0.7" 3 (by decide)⟩

theorem find?_replace (l : List Backend) (b : Backend)
    (h : l.any (fun x => x.addr == b.addr) = true) :
    (l.map (fun x => if x.addr == b.addr then b else x)).find?
      (fun x => x.addr == b.addr) = some b := by
  induction l with
  | nil => simp at h
  | cons x xs ih =>
    by_cases hx : (x.addr == b.addr) = true
    · simp [List.find?, hx]
    · have h' : xs.any (fun x => x.addr == b.addr) = true := by
        rcases List.any_eq_true.mp h with ⟨y, hy, hye⟩
        rcases List.mem_cons.mp hy with rfl | hy'
        · exact absurd hye hx
        · exact List.any_eq_true.mpr ⟨y, hy', hye⟩
      simpa [List.find?, hx] using ih h'

theorem find?_insert (l : List Backend) (b : Backend)
    (h : l.any (fun x => x.addr == b.addr) = false) :
    (l ++ [b]).find? (fun x => x.addr == b.addr) = some b := by
  induction l with
  | nil => simp [List.find?]
  | cons x xs ih =>
    have hx : (x.addr == b.addr) = false := by
      rcases List.any_eq_false.mp h x (by simp) with h'
      simpa using h'
    have h' : xs.any (fun x => x.addr == b.addr) = false := by
      refine List.any_eq_false.mpr ?_
      intro y hy
      exact List.any_eq_false.mp h y (by simp [hy])
    simpa [List.find?, hx] using ih h'

theorem find?_setBackend (l : List Backend) (b : Backend) :
    (setBackend l b).find? (fun x => x.addr == b.addr) = some b := by
  unfold setBackend
  by_cases h : l.any (fun x => x.addr == b.addr) = true
  · rw [if_pos h]
    exact find?_replace l b h
  · have h' : l.any (fun x => x.addr == b.addr) = false := by
      simpa using h
    rw [if_neg (by simp [h'])]
    exact find?_insert l b h'

theorem setBackend_idem (l : List Backend) (b : Backend) :
    setBackend (setBackend l b) b = setBackend l b := by
  have hff :
      ((fun x => if x.addr == b.addr then b else x) ∘
        (fun x => if x.addr == b.addr then b else x)) =
      (fun x : Backend => if x.addr == b.addr then b else x) := by
    funext x
    by_cases hx : (x.addr == b.addr) = true
    · simp [Function.comp, hx]
    · simp [Function.comp, hx]
  by_cases h : l.any (fun x => x.addr == b.addr) = true
  · have h1 : setBackend l b =
        l.map (fun x => if x.addr == b.addr then b else x) := by
      unfold setBackend
      rw [if_pos h]
    have h2 : (l.map (fun x => if x.addr == b.addr then b else x)).any
        (fun x => x.addr == b.addr) = true := by
      rcases List.any_eq_true.mp h with ⟨y, hy, hye⟩
      refine List.any_eq_true.mpr ⟨b, List.mem_map.mpr ⟨y, hy, by simp [hye]⟩, by simp⟩
    rw [h1]
    unfold setBackend
    rw [if_pos h2, List.map_map, hff]
  · have h' : l.any (fun x => x.addr == b.addr) = false := by simpa using h
    have h1 : setBackend l b = l ++ [b] := by
      unfold setBackend
      rw [if_neg (by simp [h'])]
    have h2 : (l ++ [b]).any (fun x => x.addr == b.addr) = true := by
      refine List.any_eq_true.mpr ⟨b, by simp, by simp⟩
    rw [h1]
    unfold setBackend
    rw [if_pos h2]
    have : ∀ x ∈ l ++ [b], (if x.addr == b.addr then b else x) = x := by
      intro x hx
      rcases List.mem_append.mp hx with hx' | hx'
      · have := List.any_eq_false.mp h' x hx'
        simp only [Bool.not_eq_true] at this
        rw [if_neg (by simp [this])]
      · rcases List.mem_singleton.mp hx' with rfl
        split <;> rfl
    calc (l ++ [b]).map (fun x => if x.addr == b.addr then b else x)
        = (l ++ [b]).map id := List.map_congr_left this
      _ = l ++ [b] := List.map_id _

theorem setBackend_keys_nodup (l : List Backend) (b : Backend)
    (h : (l.map Backend.addr).Nodup) :
    ((setBackend l b).map Backend.addr).Nodup := by
  unfold setBackend
  by_cases hc : l.any (fun x => x.addr == b.addr) = true
  · rw [if_pos hc, List.map_map]
    have hfe :
        (Backend.addr ∘ fun x => if x.addr == b.addr then b else x) =
        Backend.addr := by
      funext x
      by_cases hx : (x.addr == b.addr) = true
      · simp only [Function.comp, if_pos hx]
        exact (eq_of_beq hx).symm
      · simp only [Function.comp, if_neg hx]
    rw [hfe]
    exact h
  · have h' : l.any (fun x => x.addr == b.addr) = false := by simpa using hc
    rw [if_neg (by simp [h']), List.map_append]
    refine List.Nodup.append h (by simp) ?_
    intro a ha hb
    rcases List.mem_map.mp ha with ⟨x, hx, rfl⟩
    have := List.any_eq_false.mp h' x hx
    simp only [List.map_cons, List.map_nil, List.mem_singleton] at hb
    simp [hb] at this

/-- C9: registering an address stores a backend with the input weight when
it is ≥ 1 and weight 1 when the input is non-positive, healthy and with a
zero active count; registering the same address twice equals registering
it once, and registration never introduces a duplicate address. -/
theorem register_normalizes_and_is_idempotent (sp : ServerPool)
    (a : String) (w : Int)
    (hnd : (sp.backends.map Backend.addr).Nodup) :
    lookupBackend (AddServerWithWeight sp a w) a =
      some ⟨a, if w ≤ 0 then 1 else w, 0, true⟩ ∧
    AddServerWithWeight (AddServerWithWeight sp a w) a w =
      AddServerWithWeight sp a w ∧
    ((AddServerWithWeight sp a w).backends.map Backend.addr).Nodup := by
  refine ⟨?_, ?_, ?_⟩
  · exact find?_setBackend sp.backends ⟨a, if w ≤ 0 then 1 else w, 0, true⟩
  · simp only [AddServerWithWeight]
    rw [setBackend_idem]
  · exact setBackend_keys_nodup sp.backends
      ⟨a, if w ≤ 0 then 1 else w, 0, true⟩ hnd

/-- Witness for C9: registering a fresh address with a negative weight on a
concrete one-backend pool. -/
theorem register_normalizes_and_is_idempotent_witness :
    ((([⟨"http://localhost:8082", 2, 0, true⟩] : List Backend).map
        Backend.addr).Nodup) ∧
    (lookupBackend
        (AddServerWithWeight ⟨[⟨"http://localhost:8082", 2, 0, true⟩], 0⟩
          "http://localhost:8081" (-5)) "http://localhost:8081" =
      some ⟨"http://localhost:8081", if (-5 : Int) ≤ 0 then 1 else -5, 0,
        true⟩ ∧
    AddServerWithWeight
        (AddServerWithWeight ⟨[⟨"http://localhost:8082", 2, 0, true⟩], 0⟩
          "http://localhost:8081" (-5)) "http://localhost:8081" (-5) =
      AddServerWithWeight ⟨[⟨"http://localhost:8082", 2, 0, true⟩], 0⟩
        "http://localhost:8081" (-5) ∧
    (((AddServerWithWeight ⟨[⟨"http://localhost:8082", 2, 0, true⟩], 0⟩
        "http://localhost:8081" (-5)).backends.map Backend.addr).Nodup)) :=
  ⟨by decide,
    register_normalizes_and_is_idempotent
      ⟨[⟨"http://localhost:8082", 2, 0, true⟩], 0⟩
      "http://localhost:8081" (-5) (by decide)⟩

/-! ### Scan lemmas for the least-connections and weighted strategies -/

theorem leastScan_some_spec (l : List Backend) (c : Backend) :
    ∃ m, leastScan (some c) l = some m ∧
      (m = c ∨ (m ∈ l ∧ m.healthy = true)) ∧
      m.active ≤ c.active ∧
      ∀ b ∈ l, b.healthy = true → m.active ≤ b.active := by
  induction l generalizing c with
  | nil => exact ⟨c, rfl, Or.inl rfl, le_refl _, by simp⟩
  | cons x xs ih =>
    by_cases hx : x.healthy = true
    · by_cases hlt : x.active < c.active
      · rcases ih x with ⟨m, hm, hmem, hle, hall⟩
        have hred : leastScan (some c) (x :: xs) = leastScan (some x) xs := by
          simp [leastScan, hx, hlt]
        refine ⟨m, by rw [hred]; exact hm, ?_, ?_, ?_⟩
        · rcases hmem with rfl | ⟨hm', hh⟩
          · exact Or.inr ⟨by simp, hx⟩
          · exact Or.inr ⟨by simp [hm'], hh⟩
        · exact le_trans hle (le_of_lt hlt)
        · intro b hb hbh
          rcases List.mem_cons.mp hb with rfl | hb'
          · exact hle
          · exact hall b hb' hbh
      · rcases ih c with ⟨m, hm, hmem, hle, hall⟩
        have hred : leastScan (some c) (x :: xs) = leastScan (some c) xs := by
          simp [leastScan, hx, hlt]
        refine ⟨m, by rw [hred]; exact hm, ?_, hle, ?_⟩
        · rcases hmem with rfl | ⟨hm', hh⟩
          · exact Or.inl rfl
          · exact Or.inr ⟨by simp [hm'], hh⟩
        · intro b hb hbh
          rcases List.mem_cons.mp hb with rfl | hb'
          · exact le_trans hle (by omega)
          · exact hall b hb' hbh
    · rcases ih c with ⟨m, hm, hmem, hle, hall⟩
      have hred : leastScan (some c) (x :: xs) = leastScan (some c) xs := by
        simp [leastScan, hx]
      refine ⟨m, by rw [hred]; exact hm, ?_, hle, ?_⟩
      · rcases hmem with rfl | ⟨hm', hh⟩
        · exact Or.inl rfl
        · exact Or.inr ⟨by simp [hm'], hh⟩
      · intro b hb hbh
        rcases List.mem_cons.mp hb with rfl | hb'
        · exact absurd hbh hx
        · exact hall b hb' hbh

theorem leastScan_none_spec (l : List Backend)
    (hne : ∃ b ∈ l, b.healthy = true) :
    ∃ m, leastScan none l = some m ∧ m ∈ l ∧ m.healthy = true ∧
      ∀ b ∈ l, b.healthy = true → m.active ≤ b.active := by
  induction l with
  | nil => simp at hne
  | cons x xs ih =>
    by_cases hx : x.healthy = true
    · have hred : leastScan none (x :: xs) = leastScan (some x) xs := by
        simp [leastScan, hx]
      rcases leastScan_some_spec xs x with ⟨m, hm, hmem, hle, hall⟩
      refine ⟨m, by rw [hred]; exact hm, ?_, ?_, ?_⟩
      · rcases hmem with rfl | ⟨hm', _⟩
        · simp
        · simp [hm']
      · rcases hmem with rfl | ⟨_, hh⟩
        · exact hx
        · exact hh
      · intro b hb hbh
        rcases List.mem_cons.mp hb with rfl | hb'
        · exact hle
        · exact hall b hb' hbh
    · have hred : leastScan none (x :: xs) = leastScan none xs := by
        simp [leastScan, hx]
      have hne' : ∃ b ∈ xs, b.healthy = true := by
        rcases hne with ⟨b, hb, hbh⟩
        rcases List.mem_cons.mp hb with rfl | hb'
        · exact absurd hbh hx
        · exact ⟨b, hb', hbh⟩
      rcases ih hne' with ⟨m, hm, hmem, hh, hall⟩
      refine ⟨m, by rw [hred]; exact hm, by simp [hmem], hh, ?_⟩
      intro b hb hbh
      rcases List.mem_cons.mp hb with rfl | hb'
      · exact absurd hbh hx
      · exact hall b hb' hbh

theorem leastScan_all_unhealthy (l : List Backend)
    (h : ∀ b ∈ l, b.healthy = false) : leastScan none l = none := by
  induction l with
  | nil => rfl
  | cons x xs ih =>
    have hx : x.healthy = false := h x (by simp)
    have hred : leastScan none (x :: xs) = leastScan none xs := by
      simp [leastScan, hx]
    rw [hred]
    exact ih (fun b hb => h b (by simp [hb]))

theorem healthy_empty_iff (sp : ServerPool) :
    HealthyBackends sp = [] ↔ ∀ b ∈ sp.backends, b.healthy = false := by
  constructor
  · intro h b hb
    by_contra hbh
    have hbh' : b.healthy = true := by
      cases hb' : b.healthy
      · exact absurd hb' hbh
      · rfl
    have : b.addr ∈ HealthyBackends sp :=
      List.mem_map.mpr ⟨b, List.mem_filter.mpr ⟨hb, by simp [hbh']⟩, rfl⟩
    rw [h] at this
    simp at this
  · intro h
    have : sp.backends.filter (fun b => b.healthy) = [] := by
      rw [List.filter_eq_nil_iff]
      intro b hb
      simp [h b hb]
    simp [HealthyBackends, this]

/-- Restates `totalWeight` as a fold over the list for the scan lemmas. -/
theorem totalWeight_cons (x : Backend) (xs : List Backend) (c : Nat) :
    totalWeight ⟨x :: xs, c⟩ =
      (if x.healthy then x.weight else 0) + totalWeight ⟨xs, c⟩ := by
  by_cases hx : x.healthy = true
  · simp [totalWeight, hx]
  · simp only [Bool.not_eq_true] at hx
    simp [totalWeight, hx]

theorem totalWeight_nonneg (sp : ServerPool)
    (hw : ∀ b ∈ sp.backends, 1 ≤ b.weight) : 0 ≤ totalWeight sp := by
  rcases sp with ⟨l, c⟩
  induction l with
  | nil => simp [totalWeight]
  | cons x xs ih =>
    have hxs := ih (fun b hb => hw b (by simp [hb]))
    rw [totalWeight_cons]
    have hx1 : 1 ≤ x.weight := hw x (by simp)
    by_cases hx : x.healthy = true
    · rw [if_pos hx]; omega
    · rw [if_neg hx]; omega

theorem totalWeight_pos (sp : ServerPool)
    (hw : ∀ b ∈ sp.backends, 1 ≤ b.weight)
    (hne : ∃ b ∈ sp.backends, b.healthy = true) : 1 ≤ totalWeight sp := by
  rcases sp with ⟨l, c⟩
  induction l with
  | nil => simp at hne
  | cons x xs ih =>
    rw [totalWeight_cons]
    have hx1 : 1 ≤ x.weight := hw x (by simp)
    by_cases hx : x.healthy = true
    · rw [if_pos hx]
      have : (0:Int) ≤ totalWeight ⟨xs, c⟩ :=
        totalWeight_nonneg ⟨xs, c⟩ (fun b hb => hw b (by simp [hb]))
      omega
    · rw [if_neg hx]
      simp only [zero_add]
      rcases hne with ⟨b, hb, hbh⟩
      rcases List.mem_cons.mp hb with rfl | hb'
      · exact absurd hbh hx
      · exact ih (fun b hb => hw b (by simp [hb])) ⟨b, hb', hbh⟩

theorem totalWeight_eq_zero_of_no_healthy (sp : ServerPool)
    (h : ∀ b ∈ sp.backends, b.healthy = false) : totalWeight sp = 0 := by
  have : sp.backends.filter (fun b => b.healthy) = [] := by
    rw [List.filter_eq_nil_iff]
    intro b hb
    simp [h b hb]
  simp [totalWeight, this]

theorem weightedScan_finds (l : List Backend) (c : Nat) (cum m : Int)
    (h1 : cum ≤ m) (h2 : m < cum + totalWeight ⟨l, c⟩) :
    ∃ a, weightedScan m cum l = some a := by
  induction l generalizing cum with
  | nil =>
    simp [totalWeight] at h2
    omega
  | cons x xs ih =>
    rw [totalWeight_cons] at h2
    by_cases hx : x.healthy = true
    · rw [if_pos hx] at h2
      by_cases hm : m < cum + x.weight
      · exact ⟨x.addr, by simp [weightedScan, hx, hm]⟩
      · have hred : weightedScan m cum (x :: xs) =
            weightedScan m (cum + x.weight) xs := by
          simp [weightedScan, hx, hm]
        rcases ih (cum + x.weight) (by omega) (by omega) with ⟨a, ha⟩
        exact ⟨a, by rw [hred]; exact ha⟩
    · rw [if_neg hx] at h2
      have hred : weightedScan m cum (x :: xs) = weightedScan m cum xs := by
        simp [weightedScan, hx]
      rcases ih cum h1 (by omega) with ⟨a, ha⟩
      exact ⟨a, by rw [hred]; exact ha⟩

theorem exists_healthy_of_ne_nil (sp : ServerPool)
    (he : HealthyBackends sp ≠ []) :
    ∃ b ∈ sp.backends, b.healthy = true := by
  by_contra hall
  push_neg at hall
  refine he ((healthy_empty_iff sp).mpr ?_)
  intro b hb
  have hb' := hall b hb
  cases hh : b.healthy
  · rfl
  · exact absurd hh hb'

theorem GetWeightedBackend_of_scan_some (sp : ServerPool)
    (hne0 : ¬ totalWeight sp = 0) (a : String)
    (ha : weightedScan
        (((sp.weightCounter + 1 - 1) % (totalWeight sp).toNat : Nat) : Int)
        0 sp.backends = some a) :
    (GetWeightedBackend sp).1 = (a, true) := by
  simp only [GetWeightedBackend]
  rw [if_neg hne0, ha]

/-- C4: whenever at least one backend is healthy, the least-connections
selection reports found and returns the address of a healthy registered
backend whose active count is minimal among all currently healthy
backends. -/
theorem leastconn_selects_minimum_active (sp : ServerPool)
    (hne : HealthyBackends sp ≠ []) :
    ∃ c ∈ sp.backends, c.healthy = true ∧
      GetLeastConnBackend sp = (c.addr, true) ∧
      ∀ b ∈ sp.backends, b.healthy = true → c.active ≤ b.active := by
  rcases leastScan_none_spec sp.backends (exists_healthy_of_ne_nil sp hne)
    with ⟨m, hm, hmem, hh, hall⟩
  exact ⟨m, hmem, hh, by simp [GetLeastConnBackend, hm], hall⟩

/-- Witness for C4 on a concrete two-backend pool where the second backend
carries the smaller active count. -/
theorem leastconn_selects_minimum_active_witness :
    HealthyBackends ⟨[⟨"x", 1, 5, true⟩, ⟨"y", 1, 2, true⟩], 0⟩ ≠ [] ∧
    (∃ c ∈ ([⟨"x", 1, 5, true⟩, ⟨"y", 1, 2, true⟩] : List Backend),
      c.healthy = true ∧
      GetLeastConnBackend ⟨[⟨"x", 1, 5, true⟩, ⟨"y", 1, 2, true⟩], 0⟩ =
        (c.addr, true) ∧
      ∀ b ∈ ([⟨"x", 1, 5, true⟩, ⟨"y", 1, 2, true⟩] : List Backend),
        b.healthy = true → c.active ≤ b.active) :=
  ⟨by decide,
    leastconn_selects_minimum_active
      ⟨[⟨"x", 1, 5, true⟩, ⟨"y", 1, 2, true⟩], 0⟩ (by decide)⟩

/-- C1: for each of the three registry-backed selection strategies —
round-robin, weighted, least-connections — the found flag is false exactly
when the healthy set is empty (assuming the registration invariant that
every stored weight is at least 1, which `AddServerWithWeight` and
`NewServerPoolFromMap` establish by normalization); in every other case
the strategies return found = true, and every operation is total, so an
empty healthy set is signalled only through the flag. -/
theorem select_found_false_iff_no_healthy (sp : ServerPool)
    (rr : RoundRobin) (hw : ∀ b ∈ sp.backends, 1 ≤ b.weight) :
    ((NextBackend rr sp).1.2 = false ↔ HealthyBackends sp = []) ∧
    ((GetWeightedBackend sp).1.2 = false ↔ HealthyBackends sp = []) ∧
    ((GetLeastConnBackend sp).2 = false ↔ HealthyBackends sp = []) := by
  refine ⟨?_, ?_, ?_⟩
  · by_cases he : HealthyBackends sp = []
    · simp [NextBackend, he]
    · have hie : (HealthyBackends sp).isEmpty = false := by
        cases hh : HealthyBackends sp
        · exact absurd hh he
        · rfl
      simp [NextBackend, hie, he]
  · by_cases he : HealthyBackends sp = []
    · have h0 : totalWeight sp = 0 :=
        totalWeight_eq_zero_of_no_healthy sp ((healthy_empty_iff sp).mp he)
      simp [GetWeightedBackend, h0, he]
    · have hex : ∃ b ∈ sp.backends, b.healthy = true :=
        exists_healthy_of_ne_nil sp he
      have hpos : 1 ≤ totalWeight sp := totalWeight_pos sp hw hex
      have hne0 : ¬ totalWeight sp = 0 := by omega
      have hm0 : (0 : Int) ≤
          (((sp.weightCounter + 1 - 1) % (totalWeight sp).toNat : Nat) :
            Int) :=
        Int.natCast_nonneg _
      have hmlt :
          ((((sp.weightCounter + 1 - 1) % (totalWeight sp).toNat : Nat)) :
            Int) < totalWeight sp := by
        have h1 : (sp.weightCounter + 1 - 1) % (totalWeight sp).toNat
            < (totalWeight sp).toNat := Nat.mod_lt _ (by omega)
        omega
      rcases weightedScan_finds sp.backends sp.weightCounter 0
          (((sp.weightCounter + 1 - 1) % (totalWeight sp).toNat : Nat) : Int)
          hm0 (by simpa using hmlt) with ⟨a, ha⟩
      have hfound : (GetWeightedBackend sp).1 = (a, true) :=
        GetWeightedBackend_of_scan_some sp hne0 a ha
      rw [hfound]
      simp [he]
  · by_cases he : HealthyBackends sp = []
    · have hnone :=
        leastScan_all_unhealthy sp.backends ((healthy_empty_iff sp).mp he)
      simp [GetLeastConnBackend, hnone, he]
    · rcases leastScan_none_spec sp.backends (exists_healthy_of_ne_nil sp he)
        with ⟨m, hm, -, -, -⟩
      simp [GetLeastConnBackend, hm, he]

/-- Witness for C1 on a concrete one-backend pool satisfying the weight
invariant. -/
theorem select_found_false_iff_no_healthy_witness :
    (∀ b ∈ ([⟨"http://localhost:8081", 2, 0, true⟩] : List Backend),
      1 ≤ b.weight) ∧
    (((NextBackend ⟨0⟩ ⟨[⟨"http://localhost:8081", 2, 0, true⟩], 0⟩).1.2 =
          false ↔
        HealthyBackends ⟨[⟨"http://localhost:8081", 2, 0, true⟩], 0⟩ = []) ∧
      ((GetWeightedBackend
            ⟨[⟨"http://localhost:8081", 2, 0, true⟩], 0⟩).1.2 = false ↔
        HealthyBackends ⟨[⟨"http://localhost:8081", 2, 0, true⟩], 0⟩ = []) ∧
      ((GetLeastConnBackend
            ⟨[⟨"http://localhost:8081", 2, 0, true⟩], 0⟩).2 = false ↔
        HealthyBackends ⟨[⟨"http://localhost:8081", 2, 0, true⟩], 0⟩ = [])) :=
  ⟨by decide,
    select_found_false_iff_no_healthy
      ⟨[⟨"http://localhost:8081", 2, 0, true⟩], 0⟩ ⟨0⟩ (by decide)⟩
